import Mathlib

/-!
Verification of the vector-retrieval engine of the LegalSathi repository
(`src/backend/embedding_utils.py`): the chunker `chunk_text`, the embedding
wrapper `embed_texts`, the indexing orchestrator `index_document`, the
index loader `load_index` and the similarity search `retrieve`.

Texts are modelled as `List Char`; floating-point numbers as `ℤ` (vector
components and similarity scores, whose claims concern control flow and
ordering only), `ℚ` (stored timestamps) or `ℝ` (the norm claims); Python
exceptions as `Option`/`none`; and the Mongo `embeddings` collection as a
list of association lists mirroring the Python dicts that the code inserts.
-/

/-- Whitespace characters removed by Python `str.strip()` (ASCII range). -/
def isPySpace (c : Char) : Bool :=
  c = ' ' || c = '\t' || c = '\n' || c = '\r' || c = '\x0b' || c = '\x0c'

/-- Model of Python `p.strip()`: drop leading and trailing whitespace. -/
def pyStrip (s : List Char) : List Char :=
  ((s.dropWhile isPySpace).reverse.dropWhile isPySpace).reverse

/-- Length of the maximal run of newline characters at the head of `s`. -/
def nlRun : List Char → Nat
  | '\n' :: rest => nlRun rest + 1
  | _ => 0

/-- If a match of the separator regex `\n{2,}|\r\n{2,}` (embedding_utils.py
line 90) starts at the head of `s`, return its (greedy, maximal) length.
The first alternative matches a run of two or more newlines; the second a
carriage return followed by two or more newlines. -/
def sepLen : List Char → Option Nat
  | '\n' :: '\n' :: rest => some (nlRun rest + 2)
  | '\r' :: '\n' :: '\n' :: rest => some (nlRun rest + 3)
  | _ => none

/-- Splitting loop of `re.split(r'\n{2,}|\r\n{2,}', text)`: scan the text,
cutting at every separator match.  Fuel-structured so that the definition
reduces; `fuel = s.length` always suffices because every step consumes at
least one character, and when the fuel runs out `s` is empty so the
fuel-exhausted arm coincides with the genuine base case. -/
def splitGoF : Nat → List Char → List Char → List (List Char)
  | 0, _, acc => [acc.reverse]
  | fuel + 1, s, acc =>
    match sepLen s with
    | some k => acc.reverse :: splitGoF fuel (s.drop k) []
    | none =>
      match s with
      | [] => [acc.reverse]
      | c :: rest => splitGoF fuel rest (c :: acc)

/-- Model of `re.split(r'\n{2,}|\r\n{2,}', text)` (embedding_utils.py line 90). -/
def splitParas (t : List Char) : List (List Char) :=
  splitGoF t.length t []

/-- Model of the Python slice `l[i:]` for a possibly negative start index:
a negative index counts from the end of the list, clamped at 0. -/
def pyDropFrom (i : Int) (l : List Char) : List Char :=
  if 0 ≤ i then l.drop i.toNat else l.drop (l.length - (-i).toNat)

/-- The hard-split loop of `chunk_text` (embedding_utils.py lines 103-107):

    temp = p
    while len(temp) > chunk_size:
        chunks.append(temp[:chunk_size])
        temp = temp[chunk_size - overlap:]

Returns the appended slices and the final residue `temp`.  The loop is
fuel-structured because for `overlap >= chunk_size` the Python loop does
not terminate; for `overlap < chunk_size` the fuel `temp.length` suffices
(each iteration shortens `temp` by `chunk_size - overlap ≥ 1`). -/
def hardSplitF (cs ov : Nat) : Nat → List Char → List (List Char) × List Char
  | 0, temp => ([], temp)
  | fuel + 1, temp =>
    if cs < temp.length then
      (temp.take cs :: (hardSplitF cs ov fuel (pyDropFrom ((cs : Int) - (ov : Int)) temp)).1,
       (hardSplitF cs ov fuel (pyDropFrom ((cs : Int) - (ov : Int)) temp)).2)
    else ([], temp)

/-- The hard-split loop run with sufficient fuel (`overlap < chunk_size`). -/
def hardSplit (cs ov : Nat) (p : List Char) : List (List Char) × List Char :=
  hardSplitF cs ov p.length p

/-- Main accumulation loop of `chunk_text` (embedding_utils.py lines 93-109):
process each paragraph, buffering while the buffer stays within
`chunk_size`, flushing and hard-splitting on overflow, flushing the final
buffer at the end. -/
def chunkGo (cs ov : Nat) : List (List Char) → List Char → List (List Char) → List (List Char)
  | [], buf, chunks => if buf.isEmpty then chunks else chunks ++ [buf]
  | p :: ps, buf, chunks =>
    let p2 := pyStrip p
    if p2.isEmpty then chunkGo cs ov ps buf chunks
    else if buf.length + p2.length + 2 ≤ cs then
      chunkGo cs ov ps (if buf.isEmpty then p2 else buf ++ '\n' :: '\n' :: p2) chunks
    else
      chunkGo cs ov ps (hardSplit cs ov p2).2
        ((if buf.isEmpty then chunks else chunks ++ [buf]) ++ (hardSplit cs ov p2).1)

/-- Model of `chunk_text(text, chunk_size, overlap)` (embedding_utils.py
lines 88-110). -/
def chunk_text (text : List Char) (cs ov : Nat) : List (List Char) :=
  chunkGo cs ov (splitParas text) [] []

/-- Concatenation of a chunk list with the declared overlap regions removed:
the first `ov` characters of every chunk after the first are the declared
overlap with the previous chunk and are dropped. -/
def recon (ov : Nat) : List (List Char) → List Char
  | [] => []
  | c :: rest => c ++ (rest.map (fun s => s.drop ov)).flatten

/-- The overlap relation claimed between consecutive chunks: the next chunk
begins with the last `ov` characters of the previous one. -/
def overlapLink (ov : Nat) (a b : List Char) : Prop :=
  b.take ov = a.drop (a.length - ov)

instance (ov : Nat) : DecidableRel (overlapLink ov) := fun a b => by
  unfold overlapLink; infer_instance

/-- An embedding backend: a batch of texts to an optional batch of vectors;
`none` models a raised exception.  Vector components are modelled as
integers (every claim below concerns control flow and ordering only, and
the ordering of integer-valued scores behaves as that of floats). -/
abbrev EmbedFn := List (List Char) → Option (List (List ℤ))

/-- Batch embedding built from a per-text provider: the batched request
fails as a whole if the provider fails on any text of the batch. -/
def embedBatchOf (f : List Char → Option (List ℤ)) : EmbedFn :=
  fun ts => ts.mapM f

/-- Configuration of `embed_texts`: whether `EMBED_WITH_GROQ` is enabled,
the optional Groq client, and the optional sentence-transformers backend
(`none` models "not installed"/"not available"). -/
structure EmbedCfg where
  useGroq : Bool
  groq : Option EmbedFn
  st : Option EmbedFn

/-- Model of `embed_texts` (embedding_utils.py lines 142-165): try the Groq
backend when enabled and available, falling back to sentence-transformers
on failure; raise (`none`) when no backend is available or the backend
call fails.  Vectors carry the values the code stores; the Groq-path
normalization of lines 152-156 divides by a real square root and is
modelled separately over `ℝ` by `groqRowDivisor`/`groqNormalizeRow`. -/
def embed_texts (cfg : EmbedCfg) (texts : List (List Char)) : Option (List (List ℤ)) :=
  match (if cfg.useGroq then cfg.groq else none) with
  | some g =>
    match g texts with
    | some arr => some arr
    | none =>
      match cfg.st with
      | some s => s texts
      | none => none
  | none =>
    match cfg.st with
    | some s => s texts
    | none => none

/-- A value stored in a field of a Mongo document. -/
inductive MVal where
  | str : List Char → MVal
  | num : Nat → MVal
  | q : ℚ → MVal
deriving DecidableEq

/-- A stored record of the `embeddings` collection, modelled as the
association list of the Python dict that `index_document` inserts. -/
abbrev Meta := List (String × MVal)

/-- The metadata dict built for one chunk (embedding_utils.py lines
208-217); these are exactly the keys the code stores. -/
def mkMeta (indexName convId fileRecordId filename userId chunk : List Char)
    (fid : Nat) (ts : ℚ) : Meta :=
  [("index_name", MVal.str indexName),
   ("faiss_id", MVal.num fid),
   ("conv_id", MVal.str convId),
   ("file_record_id", MVal.str fileRecordId),
   ("filename", MVal.str filename),
   ("chunk_text", MVal.str chunk),
   ("user_id", MVal.str userId),
   ("timestamp", MVal.q ts)]

/-- Model of `index_document` (embedding_utils.py lines 168-225) for one
document: split the text with `chunk_text`, embed all chunks in one batch,
and on success build one metadata record per chunk (inserted into the
`embeddings` collection in this order) plus one `(faiss_id, vector)` entry
added to the FAISS index; `none` models the exception raised when the
batch embedding fails, in which case nothing is stored.  `ids i` models
the uuid-derived 63-bit integer id generated for chunk `i` and `tsf i` the
`time.time()` value at its insertion; `cs`/`ov` stand for the configured
`DEFAULT_CHUNK_SIZE`/`DEFAULT_OVERLAP` the code passes implicitly. -/
def index_document (cfg : EmbedCfg) (ids : Nat → Nat) (tsf : Nat → ℚ)
    (indexName convId fileRecordId filename userId : List Char)
    (text : List Char) (cs ov : Nat) :
    Option (List Meta × List (Nat × List ℤ)) :=
  if (chunk_text text cs ov).isEmpty then some ([], [])
  else
    match embed_texts cfg (chunk_text text cs ov) with
    | none => none
    | some vecs =>
      some ((chunk_text text cs ov).enum.map
              (fun ic => mkMeta indexName convId fileRecordId filename userId
                           ic.2 (ids ic.1) (tsf ic.1)),
            (chunk_text text cs ov).enum.map
              (fun ic => (ids ic.1, vecs.getD ic.1 [])))

/-- Model of `load_index` (embedding_utils.py lines 73-84): return the
persisted index when one exists for `name`, otherwise a fresh empty index.
The FAISS `IndexIDMap(IndexFlatIP(dim))` is modelled as its list of
`(id, vector)` pairs in insertion order. -/
def load_index (store : List Char → Option (List (Nat × List ℤ)))
    (name : List Char) : List (Nat × List ℤ) :=
  match store name with
  | some idx => idx
  | none => []

/-- Inner product of two vectors (the `IndexFlatIP` score). -/
def dot (a b : List ℤ) : ℤ := (List.zipWith (fun x y => x * y) a b).sum

/-- Insert an id-score pair into a list sorted by non-increasing score,
before the first pair whose score does not exceed it (stable insertion). -/
def insertDescBy (x : Nat × ℤ) : List (Nat × ℤ) → List (Nat × ℤ)
  | [] => [x]
  | y :: ys => if y.2 ≤ x.2 then x :: y :: ys else y :: insertDescBy x ys

/-- Stable sort by non-increasing score. -/
def sortDescBy : List (Nat × ℤ) → List (Nat × ℤ)
  | [] => []
  | x :: xs => insertDescBy x (sortDescBy xs)

/-- Exhaustive inner-product search of the modelled FAISS index
(`index.search(q, top_k)` at embedding_utils.py line 244): score every
stored vector against `q` and return the first `top_k` pairs in
non-increasing score order, ties keeping the index's internal (insertion)
order — the flat index scans stored vectors in order and knows nothing of
the Mongo-side timestamps.  When fewer than `top_k` vectors exist FAISS
pads the result with id `-1`; the code's `fid < 0` check (line 249) drops
that padding, so the model returns only real entries. -/
def faissSearch (q : List ℤ) (entries : List (Nat × List ℤ)) (k : Nat) :
    List (Nat × ℤ) :=
  (sortDescBy (entries.map (fun e => (e.1, dot q e.2)))).take k

/-- One hit returned by `retrieve` (embedding_utils.py lines 254-262). -/
structure Hit where
  score : ℤ
  faiss_id : Nat
  chunk_text : List Char
  filename : List Char
  conv_id : List Char
  file_record_id : List Char
  timestamp : ℚ
deriving DecidableEq

/-- Model of `meta.get(key)` for a string-valued field; the default `[]`
stands for the `None` that `dict.get` returns for an absent key, which
never happens for records written by `index_document`. -/
def metaGetStr (m : Meta) (k : String) : List Char :=
  match m.lookup k with
  | some (MVal.str s) => s
  | _ => []

/-- Model of `meta.get(key)` for a numeric field. -/
def metaGetQ (m : Meta) (k : String) : ℚ :=
  match m.lookup k with
  | some (MVal.q x) => x
  | _ => 0

/-- Build the hit dict for one `(faiss_id, score)` search result
(embedding_utils.py lines 248-262): `find_one` the metadata record on
`faiss_id` and `index_name`; `none` when no record matches (the code
`continue`s past such ids). -/
def hitOf (db : List Meta) (indexName : List Char) (fs : Nat × ℤ) : Option Hit :=
  match db.find? (fun m =>
    decide (m.lookup "faiss_id" = some (MVal.num fs.1)) &&
    decide (m.lookup "index_name" = some (MVal.str indexName))) with
  | none => none
  | some meta =>
    some ⟨fs.2, fs.1, metaGetStr meta "chunk_text", metaGetStr meta "filename",
          metaGetStr meta "conv_id", metaGetStr meta "file_record_id",
          metaGetQ meta "timestamp"⟩

/-- Model of `retrieve` (embedding_utils.py lines 227-263): embed the query
(`none` models the exception when that fails), load the index stored for
`indexName`, return `[]` when that index is empty, otherwise search it for
the `top_k` nearest ids and map each id back to its record in the
`embeddings` collection, skipping ids with no record. -/
def retrieve (cfg : EmbedCfg) (store : List Char → Option (List (Nat × List ℤ)))
    (db : List Meta) (query : List Char) (top_k : Nat) (indexName : List Char) :
    Option (List Hit) :=
  match embed_texts cfg [query] with
  | none => none
  | some qvecs =>
    if (load_index store indexName).isEmpty then some []
    else
      some ((faissSearch (qvecs.getD 0 []) (load_index store indexName) top_k).filterMap
        (hitOf db indexName))

/-- Squared L2 norm of a vector over the idealized reals. -/
noncomputable def l2normSq (v : List ℝ) : ℝ := (v.map (fun x => x * x)).sum

/-- L2 norm (`np.linalg.norm` of one row, embedding_utils.py line 154). -/
noncomputable def l2norm (v : List ℝ) : ℝ := Real.sqrt (l2normSq v)

/-- The divisor applied to one row by the Groq-path normalization
(embedding_utils.py lines 154-156): `norms[norms == 0] = 1.0` replaces a
zero norm by 1 before the division `arr / norms`. -/
noncomputable def groqRowDivisor (v : List ℝ) : ℝ :=
  if l2norm v = 0 then 1 else l2norm v

/-- One row of `arr / norms` after the zero-norm replacement. -/
noncomputable def groqNormalizeRow (v : List ℝ) : List ℝ :=
  v.map (fun x => x / groqRowDivisor v)

/-- A per-chunk embedding provider that fails on exactly the chunk "ef"
(the third of the five chunks of `textC4`). -/
def providerC4 : List Char → Option (List ℤ) :=
  fun t => if t = ['e', 'f'] then none else some [1]

/-- Embedding configuration whose only backend fails on the chunk "ef". -/
def cfgC4 : EmbedCfg := ⟨false, none, some (embedBatchOf providerC4)⟩

/-- A ten-character document that chunks into exactly five chunks with
`chunk_size = 2`, `overlap = 0`. -/
def textC4 : List Char := ['a','b','c','d','e','f','g','h','i','j']

/-- Embedding configuration whose backend succeeds on every text. -/
def cfgOk : EmbedCfg := ⟨false, none, some (embedBatchOf (fun _ => some [1]))⟩

/-- Collection tag used by the retrieval examples. -/
def inameEx : List Char := ['g']

/-- Two stored records with identical vectors: the record with `faiss_id`
1 was inserted first (`timestamp` 100), the record with `faiss_id` 2
second (`timestamp` 200). -/
def dbC3 : List Meta :=
  [mkMeta inameEx ['c'] ['f'] ['n'] ['u'] ['A'] 1 100,
   mkMeta inameEx ['c'] ['f'] ['n'] ['u'] ['B'] 2 200]

/-- The FAISS entries matching `dbC3`: identical vectors, insertion order
1 then 2. -/
def entriesC3 : List (Nat × List ℤ) := [(1, [1]), (2, [1])]

/-- An index store holding exactly the `inameEx` index with `entriesC3`. -/
def storeC3 : List Char → Option (List (Nat × List ℤ)) :=
  fun n => if n = inameEx then some entriesC3 else none

theorem sepLen_some_bounds (s : List Char) (k : Nat) (h : sepLen s = some k) :
    2 ≤ k ∧ 2 ≤ s.length := by
  unfold sepLen at h
  split at h
  · obtain rfl : nlRun _ + 2 = k := Option.some.injEq _ _ |>.mp h
    constructor
    · omega
    · simp
  · obtain rfl : nlRun _ + 3 = k := Option.some.injEq _ _ |>.mp h
    constructor
    · omega
    · simp
  · exact absurd h (by simp)

theorem sepLen_none_of (c : Char) (rest : List Char)
    (h1 : ¬ c = '\n') (h2 : ¬ c = '\r') : sepLen (c :: rest) = none := by
  unfold sepLen
  split
  · next heq => exact absurd (List.cons.injEq _ _ _ _ |>.mp heq).1 h1
  · next heq => exact absurd (List.cons.injEq _ _ _ _ |>.mp heq).1 h2
  · rfl

theorem pyDropFrom_of_le (cs ov : Nat) (h : ov ≤ cs) (l : List Char) :
    pyDropFrom ((cs : Int) - (ov : Int)) l = l.drop (cs - ov) := by
  unfold pyDropFrom
  rw [if_pos (by omega)]
  congr 1
  omega

theorem hardSplitF_congr (cs ov : Nat) (hov : ov < cs) :
    ∀ (f1 f2 : Nat) (temp : List Char), temp.length ≤ f1 → temp.length ≤ f2 →
      hardSplitF cs ov f1 temp = hardSplitF cs ov f2 temp := by
  intro f1
  induction f1 with
  | zero =>
    intro f2 temp h1 _
    cases f2 with
    | zero => rfl
    | succ f2 =>
      simp only [hardSplitF]
      rw [if_neg (by omega)]
  | succ f1 ih =>
    intro f2 temp h1 h2
    cases f2 with
    | zero =>
      simp only [hardSplitF]
      rw [if_neg (by omega)]
    | succ f2 =>
      simp only [hardSplitF]
      by_cases hc : cs < temp.length
      · rw [if_pos hc, if_pos hc, pyDropFrom_of_le cs ov (le_of_lt hov)]
        have hd : (temp.drop (cs - ov)).length ≤ f1 := by
          rw [List.length_drop]; omega
        have hd2 : (temp.drop (cs - ov)).length ≤ f2 := by
          rw [List.length_drop]; omega
        rw [ih f2 _ hd hd2]
      · rw [if_neg hc, if_neg hc]

theorem hardSplitF_snd_le (cs ov : Nat) (hov : ov < cs) :
    ∀ (fuel : Nat) (temp : List Char), temp.length ≤ fuel →
      (hardSplitF cs ov fuel temp).2.length ≤ cs := by
  intro fuel
  induction fuel with
  | zero =>
    intro temp h1
    simp only [hardSplitF]
    exact le_trans h1 (Nat.zero_le cs)
  | succ fuel ih =>
    intro temp h1
    simp only [hardSplitF]
    by_cases hc : cs < temp.length
    · rw [if_pos hc, pyDropFrom_of_le cs ov (le_of_lt hov)]
      exact ih _ (by rw [List.length_drop]; omega)
    · rw [if_neg hc]; exact le_of_not_lt hc

theorem hardSplitF_ov_lt_snd (cs ov : Nat) (hov : ov < cs) :
    ∀ (fuel : Nat) (temp : List Char), temp.length ≤ fuel → cs < temp.length →
      ov < (hardSplitF cs ov fuel temp).2.length := by
  intro fuel
  induction fuel with
  | zero => intro temp h1 hc; omega
  | succ fuel ih =>
    intro temp h1 hc
    simp only [hardSplitF]
    rw [if_pos hc, pyDropFrom_of_le cs ov (le_of_lt hov)]
    by_cases hc2 : cs < (temp.drop (cs - ov)).length
    · exact ih _ (by rw [List.length_drop]; omega) hc2
    · have : (hardSplitF cs ov fuel (temp.drop (cs - ov))).2 = temp.drop (cs - ov) := by
        cases fuel with
        | zero => rfl
        | succ fuel => simp only [hardSplitF]; rw [if_neg hc2]
      rw [this, List.length_drop]
      omega

theorem hardSplitF_fst_len (cs ov : Nat) (hov : ov < cs) :
    ∀ (fuel : Nat) (temp : List Char), temp.length ≤ fuel →
      ∀ s ∈ (hardSplitF cs ov fuel temp).1, s.length = cs := by
  intro fuel
  induction fuel with
  | zero => intro temp h1 s hs; simp [hardSplitF] at hs
  | succ fuel ih =>
    intro temp h1 s hs
    simp only [hardSplitF] at hs
    by_cases hc : cs < temp.length
    · rw [if_pos hc] at hs
      rw [pyDropFrom_of_le cs ov (le_of_lt hov)] at hs
      rcases List.mem_cons.mp hs with h | h
      · subst h; rw [List.length_take]; omega
      · exact ih _ (by rw [List.length_drop]; omega) s h
    · rw [if_neg hc] at hs
      exact absurd hs (List.not_mem_nil s)

theorem hardSplitF_flatten_drop (cs ov : Nat) (hov : ov < cs) :
    ∀ (fuel : Nat) (temp : List Char), temp.length ≤ fuel →
      (((hardSplitF cs ov fuel temp).1 ++ [(hardSplitF cs ov fuel temp).2]).map
        (fun s => s.drop ov)).flatten = temp.drop ov := by
  intro fuel
  induction fuel with
  | zero => intro temp h1; simp [hardSplitF]
  | succ fuel ih =>
    intro temp h1
    simp only [hardSplitF]
    by_cases hc : cs < temp.length
    · rw [if_pos hc, pyDropFrom_of_le cs ov (le_of_lt hov)]
      have ihd := ih (temp.drop (cs - ov)) (by rw [List.length_drop]; omega)
      simp only [List.cons_append, List.map_cons, List.flatten_cons]
      rw [ihd, List.drop_drop, List.drop_take]
      exact List.drop_take_append_drop' temp ov (cs - ov)
    · rw [if_neg hc]; simp

theorem hardSplitF_head_take (cs ov : Nat) (hov : ov < cs) (fuel : Nat) (temp : List Char) :
    ∀ y, ((hardSplitF cs ov fuel temp).1 ++ [(hardSplitF cs ov fuel temp).2]).head? = some y →
      y.take ov = temp.take ov := by
  intro y hy
  cases fuel with
  | zero =>
    simp [hardSplitF] at hy
    rw [hy]
  | succ fuel =>
    simp only [hardSplitF] at hy
    by_cases hc : cs < temp.length
    · rw [if_pos hc] at hy
      simp only [List.cons_append, List.head?_cons, Option.some.injEq] at hy
      rw [← hy, List.take_take]
      congr 1
      omega
    · rw [if_neg hc] at hy
      simp at hy
      rw [hy]

theorem hardSplitF_chain (cs ov : Nat) (hov : ov < cs) :
    ∀ (fuel : Nat) (temp : List Char), temp.length ≤ fuel →
      List.Chain' (overlapLink ov)
        ((hardSplitF cs ov fuel temp).1 ++ [(hardSplitF cs ov fuel temp).2]) := by
  intro fuel
  induction fuel with
  | zero => intro temp h1; simp [hardSplitF]
  | succ fuel ih =>
    intro temp h1
    simp only [hardSplitF]
    by_cases hc : cs < temp.length
    · rw [if_pos hc, pyDropFrom_of_le cs ov (le_of_lt hov)]
      simp only [List.cons_append]
      rw [List.chain'_cons']
      constructor
      · intro y hy
        have hyt := hardSplitF_head_take cs ov hov fuel (temp.drop (cs - ov)) y hy
        unfold overlapLink
        rw [hyt, List.length_take]
        have hmin : min cs temp.length = cs := by omega
        rw [hmin, List.drop_take]
        congr 1
        omega
      · exact ih _ (by rw [List.length_drop]; omega)
    · rw [if_neg hc]; simp

theorem splitGoF_no_sep :
    ∀ (fuel : Nat) (s acc : List Char), s.length ≤ fuel →
      (∀ c ∈ s, ¬ c = '\n' ∧ ¬ c = '\r') →
      splitGoF fuel s acc = [acc.reverse ++ s] := by
  intro fuel
  induction fuel with
  | zero =>
    intro s acc h1 _
    have hs : s = [] := List.length_eq_zero.mp (by omega)
    subst hs
    simp [splitGoF]
  | succ fuel ih =>
    intro s acc h1 h2
    cases s with
    | nil => simp [splitGoF, sepLen]
    | cons c rest =>
      have hc := h2 c (by simp)
      simp only [splitGoF]
      rw [sepLen_none_of c rest hc.1 hc.2]
      have hlen : rest.length ≤ fuel := by
        simp only [List.length_cons] at h1; omega
      have hmem : ∀ d ∈ rest, ¬ d = '\n' ∧ ¬ d = '\r' :=
        fun d hd => h2 d (by simp [hd])
      exact (ih rest (c :: acc) hlen hmem).trans (by simp)

theorem splitParas_no_sep (t : List Char) (h : ∀ c ∈ t, ¬ c = '\n' ∧ ¬ c = '\r') :
    splitParas t = [t] := by
  unfold splitParas
  simpa using splitGoF_no_sep t.length t [] le_rfl h

theorem chunk_text_single_long (p : List Char) (cs ov : Nat) (hov : ov < cs)
    (hclean : ∀ c ∈ p, ¬ c = '\n' ∧ ¬ c = '\r') (hstrip : pyStrip p = p)
    (hlong : cs < p.length) :
    chunk_text p cs ov = (hardSplit cs ov p).1 ++ [(hardSplit cs ov p).2] := by
  have hemp : ¬ p.isEmpty = true := by
    rw [List.isEmpty_iff]
    intro h
    subst h
    simp at hlong
  unfold chunk_text
  rw [splitParas_no_sep p hclean]
  simp only [chunkGo, hstrip]
  rw [if_neg hemp, if_neg (by simp; omega)]
  simp only [List.isEmpty_nil, if_true, List.nil_append, chunkGo]
  rw [if_neg]
  intro h
  rw [List.isEmpty_iff] at h
  have := hardSplitF_ov_lt_snd cs ov hov p.length p le_rfl hlong
  rw [show (hardSplit cs ov p).2 = (hardSplitF cs ov p.length p).2 from rfl] at h
  rw [h] at this
  simp at this

theorem chunk_text_single_short (p : List Char) (cs ov : Nat) (hov : ov < cs)
    (hclean : ∀ c ∈ p, ¬ c = '\n' ∧ ¬ c = '\r') (hstrip : pyStrip p = p)
    (hne : p ≠ []) (hshort : p.length ≤ cs) :
    chunk_text p cs ov = [p] := by
  have hemp : ¬ p.isEmpty = true := by rw [List.isEmpty_iff]; exact hne
  unfold chunk_text
  rw [splitParas_no_sep p hclean]
  simp only [chunkGo, hstrip]
  rw [if_neg hemp]
  by_cases hfit : ([] : List Char).length + p.length + 2 ≤ cs
  · rw [if_pos hfit]
    simp only [List.isEmpty_nil, if_true, chunkGo]
    rw [if_neg hemp]
    simp
  · rw [if_neg hfit]
    have hhs : hardSplit cs ov p = ([], p) := by
      unfold hardSplit
      cases hl : p.length with
      | zero => exact absurd (List.length_eq_zero.mp hl) hne
      | succ n =>
        simp only [hardSplitF]
        rw [if_neg (by omega)]
    rw [hhs]
    simp only [List.isEmpty_nil, if_true, List.nil_append, List.append_nil, chunkGo]
    rw [if_neg hemp]

theorem chunkGo_len_le (cs ov : Nat) (hov : ov < cs) :
    ∀ (parts : List (List Char)) (buf : List Char) (chunks : List (List Char)),
      buf.length ≤ cs → (∀ c ∈ chunks, c.length ≤ cs) →
      ∀ c ∈ chunkGo cs ov parts buf chunks, c.length ≤ cs := by
  intro parts
  induction parts with
  | nil =>
    intro buf chunks hbuf hch c hc
    simp only [chunkGo] at hc
    by_cases hb : buf.isEmpty
    · rw [if_pos hb] at hc; exact hch c hc
    · rw [if_neg hb] at hc
      rcases List.mem_append.mp hc with h | h
      · exact hch c h
      · simp at h; subst h; exact hbuf
  | cons p ps ih =>
    intro buf chunks hbuf hch c hc
    simp only [chunkGo] at hc
    by_cases h2 : (pyStrip p).isEmpty
    · rw [if_pos h2] at hc; exact ih buf chunks hbuf hch c hc
    · rw [if_neg h2] at hc
      by_cases hfit : buf.length + (pyStrip p).length + 2 ≤ cs
      · rw [if_pos hfit] at hc
        refine ih _ chunks ?_ hch c hc
        by_cases hb : buf.isEmpty
        · rw [if_pos hb]; omega
        · rw [if_neg hb]; simp; omega
      · rw [if_neg hfit] at hc
        refine ih _ _ ?_ ?_ c hc
        · exact hardSplitF_snd_le cs ov hov (pyStrip p).length (pyStrip p) le_rfl
        · intro d hd
          rcases List.mem_append.mp hd with h | h
          · by_cases hb : buf.isEmpty
            · rw [if_pos hb] at h; exact hch d h
            · rw [if_neg hb] at h
              rcases List.mem_append.mp h with h | h
              · exact hch d h
              · simp at h; subst h; exact hbuf
          · exact le_of_eq
              (hardSplitF_fst_len cs ov hov (pyStrip p).length (pyStrip p) le_rfl d h)

theorem mem_insertDescBy (x z : Nat × ℤ) (l : List (Nat × ℤ))
    (h : z ∈ insertDescBy x l) : z = x ∨ z ∈ l := by
  induction l with
  | nil => simpa [insertDescBy] using h
  | cons y ys ih =>
    simp only [insertDescBy] at h
    by_cases hc : y.2 ≤ x.2
    · rw [if_pos hc] at h
      rcases List.mem_cons.mp h with h | h
      · exact Or.inl h
      · exact Or.inr h
    · rw [if_neg hc] at h
      rcases List.mem_cons.mp h with h | h
      · exact Or.inr (by simp [h])
      · rcases ih h with h | h
        · exact Or.inl h
        · exact Or.inr (by simp [h])

theorem pairwise_insertDescBy (x : Nat × ℤ) (l : List (Nat × ℤ))
    (h : List.Pairwise (fun a b => b.2 ≤ a.2) l) :
    List.Pairwise (fun a b => b.2 ≤ a.2) (insertDescBy x l) := by
  induction l with
  | nil => simp [insertDescBy]
  | cons y ys ih =>
    simp only [insertDescBy]
    rcases List.pairwise_cons.mp h with ⟨hy, hys⟩
    by_cases hc : y.2 ≤ x.2
    · rw [if_pos hc]
      refine List.Pairwise.cons ?_ h
      intro z hz
      rcases List.mem_cons.mp hz with h2 | h2
      · subst h2; exact hc
      · exact le_trans (hy z h2) hc
    · rw [if_neg hc]
      refine List.Pairwise.cons ?_ (ih hys)
      intro z hz
      rcases mem_insertDescBy x z ys hz with h2 | h2
      · subst h2; exact le_of_not_le hc
      · exact hy z h2

theorem pairwise_sortDescBy (l : List (Nat × ℤ)) :
    List.Pairwise (fun a b => b.2 ≤ a.2) (sortDescBy l) := by
  induction l with
  | nil => simp [sortDescBy]
  | cons x xs ih => exact pairwise_insertDescBy x _ ih

theorem pairwise_filterMap_of {α β : Type} (f : α → Option β)
    (R : α → α → Prop) (S : β → β → Prop)
    (hf : ∀ a b x y, R a b → f a = some x → f b = some y → S x y) :
    ∀ l : List α, List.Pairwise R l → List.Pairwise S (l.filterMap f) := by
  intro l
  induction l with
  | nil => intro _; simp
  | cons a l ih =>
    intro h
    rcases List.pairwise_cons.mp h with ⟨ha, hl⟩
    rw [List.filterMap_cons]
    cases hfa : f a with
    | none => exact ih hl
    | some x =>
      refine List.Pairwise.cons ?_ (ih hl)
      intro y hy
      rcases List.mem_filterMap.mp hy with ⟨b, hb, hfb⟩
      exact hf a b x y (ha b hb) hfa hfb

theorem hitOf_score (db : List Meta) (indexName : List Char) (fs : Nat × ℤ) (x : Hit)
    (h : hitOf db indexName fs = some x) : x.score = fs.2 := by
  unfold hitOf at h
  split at h
  · exact absurd h (by simp)
  · obtain rfl := (Option.some.injEq _ _).mp h
    rfl

theorem retrieve_none_of_embed_none (cfg : EmbedCfg)
    (store : List Char → Option (List (Nat × List ℤ))) (db : List Meta)
    (query : List Char) (top_k : Nat) (indexName : List Char)
    (he : embed_texts cfg [query] = none) :
    retrieve cfg store db query top_k indexName = none := by
  unfold retrieve
  rw [he]

/-- Claim C3 (amended): whenever `retrieve` returns (the query embedding
succeeded), it returns at most `top_k` hits in non-increasing score order;
no `created_at` tie-break is applied — equal scores are returned in the
index's internal insertion order, independent of the stored timestamps. -/
theorem retrieve_sorted_le_top_k (cfg : EmbedCfg)
    (store : List Char → Option (List (Nat × List ℤ))) (db : List Meta)
    (query : List Char) (top_k : Nat) (indexName : List Char) (hits : List Hit)
    (h : retrieve cfg store db query top_k indexName = some hits) :
    hits.length ≤ top_k ∧ List.Pairwise (fun a b => b.score ≤ a.score) hits := by
  unfold retrieve at h
  split at h
  · exact absurd h (by simp)
  · by_cases hemp : (load_index store indexName).isEmpty
    · rw [if_pos hemp] at h
      obtain rfl : ([] : List Hit) = hits := (Option.some.injEq _ _).mp h
      exact ⟨Nat.zero_le _, List.Pairwise.nil⟩
    · rw [if_neg hemp] at h
      obtain rfl := (Option.some.injEq _ _).mp h
      constructor
      · refine le_trans (List.length_filterMap_le _ _) ?_
        unfold faissSearch
        exact List.length_take_le _ _
      · refine pairwise_filterMap_of (hitOf db indexName)
          (fun a b => b.2 ≤ a.2) (fun a b => b.score ≤ a.score) ?_ _ ?_
        · intro a b x y hR hfa hfb
          rw [hitOf_score db indexName a x hfa, hitOf_score db indexName b y hfb]
          exact hR
        · unfold faissSearch
          exact (pairwise_sortDescBy _).sublist (List.take_sublist _ _)

theorem index_document_none_of_embed_none (cfg : EmbedCfg) (ids : Nat → Nat) (tsf : Nat → ℚ)
    (indexName convId fileRecordId filename userId text : List Char) (cs ov : Nat)
    (hne : (chunk_text text cs ov).isEmpty = false)
    (he : embed_texts cfg (chunk_text text cs ov) = none) :
    index_document cfg ids tsf indexName convId fileRecordId filename userId text cs ov =
      none := by
  unfold index_document
  rw [hne, he]
  rfl

theorem index_document_stores_all_of_embed_some (cfg : EmbedCfg) (ids : Nat → Nat)
    (tsf : Nat → ℚ) (indexName convId fileRecordId filename userId text : List Char)
    (cs ov : Nat) (vecs : List (List ℤ))
    (hv : embed_texts cfg (chunk_text text cs ov) = some vecs) :
    (index_document cfg ids tsf indexName convId fileRecordId filename userId text cs ov).map
      (fun r => r.1.length) = some (chunk_text text cs ov).length := by
  unfold index_document
  by_cases hemp : (chunk_text text cs ov).isEmpty
  · rw [if_pos hemp]
    rw [List.isEmpty_iff] at hemp
    rw [hemp]
    rfl
  · rw [if_neg hemp, hv]
    simp [List.enum_length]

/-- Claim C4 (amended): `index_document` is not partial-failure tolerant:
embedding is a single batched call, so when it fails (after any fallback)
the whole call raises and stores nothing, and when it succeeds every chunk
is stored; there is no per-chunk skip and no
`{chunks_attempted, chunks_stored}` summary (the code returns the list of
stored metadata records). -/
theorem index_document_all_or_nothing (cfg : EmbedCfg) (ids : Nat → Nat) (tsf : Nat → ℚ)
    (indexName convId fileRecordId filename userId text : List Char) (cs ov : Nat)
    (hne : (chunk_text text cs ov).isEmpty = false) :
    (embed_texts cfg (chunk_text text cs ov) = none →
      index_document cfg ids tsf indexName convId fileRecordId filename userId text cs ov =
        none) ∧
    (∀ vecs, embed_texts cfg (chunk_text text cs ov) = some vecs →
      (index_document cfg ids tsf indexName convId fileRecordId filename userId
          text cs ov).map (fun r => r.1.length) =
        some (chunk_text text cs ov).length) :=
  ⟨index_document_none_of_embed_none cfg ids tsf indexName convId fileRecordId filename
      userId text cs ov hne,
   fun vecs hv => index_document_stores_all_of_embed_some cfg ids tsf indexName convId
      fileRecordId filename userId text cs ov vecs hv⟩

theorem mkMeta_lookup_chunk_text (indexName convId fileRecordId filename userId chunk :
    List Char) (fid : Nat) (ts : ℚ) :
    (mkMeta indexName convId fileRecordId filename userId chunk fid ts).lookup
      "chunk_text" = some (MVal.str chunk) := rfl

theorem mkMeta_lookup_sequence_index (indexName convId fileRecordId filename userId chunk :
    List Char) (fid : Nat) (ts : ℚ) :
    (mkMeta indexName convId fileRecordId filename userId chunk fid ts).lookup
      "sequence_index" = none := rfl

/-- Claim C7 (amended): a stored record carries no `sequence_index` field;
instead the records are inserted in source order — the i-th inserted
record of a document holds the i-th chunk of `chunk_text`'s output — so
the implicit insertion positions 0, 1, 2, … are contiguous and reflect
character-offset order, but no explicit field records them. -/
theorem index_document_order_no_seq_index (cfg : EmbedCfg) (ids : Nat → Nat) (tsf : Nat → ℚ)
    (indexName convId fileRecordId filename userId text : List Char) (cs ov : Nat)
    (metas : List Meta) (entries : List (Nat × List ℤ))
    (h : index_document cfg ids tsf indexName convId fileRecordId filename userId text cs ov =
      some (metas, entries)) :
    metas.map (fun m => m.lookup "chunk_text") =
      (chunk_text text cs ov).map (fun c => some (MVal.str c)) ∧
    metas.map (fun m => m.lookup "sequence_index") =
      (chunk_text text cs ov).map (fun _ => (none : Option MVal)) := by
  unfold index_document at h
  by_cases hemp : (chunk_text text cs ov).isEmpty
  · rw [if_pos hemp] at h
    injection h with h
    injection h with h1 h2
    subst h1
    rw [List.isEmpty_iff] at hemp
    rw [hemp]
    exact ⟨rfl, rfl⟩
  · rw [if_neg hemp] at h
    cases he : embed_texts cfg (chunk_text text cs ov) with
    | none => rw [he] at h; exact absurd h (by simp)
    | some vecs =>
      rw [he] at h
      injection h with h
      injection h with h1 h2
      subst h1
      constructor
      · rw [List.map_map]
        have hfun : ((fun m => List.lookup "chunk_text" m) ∘
            (fun ic : Nat × List Char => mkMeta indexName convId fileRecordId filename
              userId ic.2 (ids ic.1) (tsf ic.1))) =
            (fun ic : Nat × List Char => some (MVal.str ic.2)) := by
          funext ic
          exact mkMeta_lookup_chunk_text indexName convId fileRecordId filename userId
            ic.2 (ids ic.1) (tsf ic.1)
        rw [hfun]
        rw [show (fun ic : Nat × List Char => some (MVal.str ic.2)) =
            ((fun c => some (MVal.str c)) ∘ Prod.snd) from rfl]
        rw [← List.map_map, List.enum_map_snd]
      · rw [List.map_map]
        have hfun : ((fun m => List.lookup "sequence_index" m) ∘
            (fun ic : Nat × List Char => mkMeta indexName convId fileRecordId filename
              userId ic.2 (ids ic.1) (tsf ic.1))) =
            (fun ic : Nat × List Char => (none : Option MVal)) := by
          funext ic
          exact mkMeta_lookup_sequence_index indexName convId fileRecordId filename userId
            ic.2 (ids ic.1) (tsf ic.1)
        rw [hfun]
        rw [show (fun ic : Nat × List Char => (none : Option MVal)) =
            ((fun c : List Char => (none : Option MVal)) ∘ Prod.snd) from rfl]
        rw [← List.map_map, List.enum_map_snd]

/-- Claim C1, counterexample: for the non-empty input " a" with
`chunk_size = 10` and `overlap = 0`, `chunk_text` returns the single chunk
"a"; the leading space — a character of the input lying in no declared
overlap region — has been dropped (by the per-paragraph `strip()`), so
concatenating the chunks with overlaps removed does not reconstruct the
input. -/
theorem chunk_text_drops_stripped_whitespace :
    chunk_text [' ', 'a'] 10 0 = [['a']] ∧
    recon 0 (chunk_text [' ', 'a'] 10 0) ≠ [' ', 'a'] := by
  decide

/-- Claim C1 (amended): for every non-empty text that forms a single clean
paragraph — no newline or carriage-return characters and no leading or
trailing whitespace, so that neither the blank-line split nor the
per-paragraph `strip()` discards anything — and all `chunk_size`/`overlap`
with `overlap < chunk_size`, concatenating the chunks returned by
`chunk_text` with the declared overlap regions removed reconstructs the
text exactly: no character is dropped outside the overlap regions. -/
theorem chunk_text_reconstructs_clean_paragraph (p : List Char) (cs ov : Nat)
    (hov : ov < cs) (hclean : ∀ c ∈ p, ¬ c = '\n' ∧ ¬ c = '\r')
    (hstrip : pyStrip p = p) (hne : p ≠ []) :
    recon ov (chunk_text p cs ov) = p := by
  by_cases hlong : cs < p.length
  · rw [chunk_text_single_long p cs ov hov hclean hstrip hlong]
    obtain ⟨n, hn⟩ : ∃ n, p.length = n + 1 := ⟨p.length - 1, by omega⟩
    unfold hardSplit
    rw [hn]
    simp only [hardSplitF]
    rw [if_pos hlong, pyDropFrom_of_le cs ov (le_of_lt hov)]
    simp only [List.cons_append, recon]
    rw [hardSplitF_flatten_drop cs ov hov n (p.drop (cs - ov))
      (by rw [List.length_drop]; omega)]
    rw [List.drop_drop]
    rw [show cs - ov + ov = cs by omega]
    exact List.take_append_drop cs p
  · push_neg at hlong
    rw [chunk_text_single_short p cs ov hov hclean hstrip hne hlong]
    simp [recon]

theorem chunk_text_reconstructs_clean_paragraph_witness :
    1 < 3 ∧ recon 1 (chunk_text ['a','b','c','d','e','f','g'] 3 1) =
      ['a','b','c','d','e','f','g'] :=
  ⟨by decide,
   chunk_text_reconstructs_clean_paragraph ['a','b','c','d','e','f','g'] 3 1
     (by decide) (by decide) (by decide) (by decide)⟩

/-- Claim C2: for a paragraph longer than `chunk_size` (clean single
paragraph, `overlap < chunk_size`), `chunk_text` hard-splits it into
fixed-width slices: every chunk except the last has length exactly
`chunk_size`, and every chunk after the first begins with the last
`overlap` characters of the chunk before it (it starts `overlap`
characters before the previous slice's end). -/
theorem chunk_text_hard_split_overlap (p : List Char) (cs ov : Nat)
    (hov : ov < cs) (hclean : ∀ c ∈ p, ¬ c = '\n' ∧ ¬ c = '\r')
    (hstrip : pyStrip p = p) (hlong : cs < p.length) :
    List.Chain' (overlapLink ov) (chunk_text p cs ov) ∧
    ∀ s ∈ (chunk_text p cs ov).dropLast, s.length = cs := by
  rw [chunk_text_single_long p cs ov hov hclean hstrip hlong]
  constructor
  · exact hardSplitF_chain cs ov hov p.length p le_rfl
  · rw [List.dropLast_concat]
    exact hardSplitF_fst_len cs ov hov p.length p le_rfl

theorem chunk_text_hard_split_overlap_witness :
    (1 < 3 ∧ 3 < (['a','b','c','d','e','f','g'] : List Char).length) ∧
    List.Chain' (overlapLink 1) (chunk_text ['a','b','c','d','e','f','g'] 3 1) ∧
    (['a','b','c'] : List Char).length = 3 :=
  ⟨⟨by decide, by decide⟩,
   (chunk_text_hard_split_overlap ['a','b','c','d','e','f','g'] 3 1 (by decide) (by decide)
      (by decide) (by decide)).1,
   (chunk_text_hard_split_overlap ['a','b','c','d','e','f','g'] 3 1 (by decide) (by decide)
      (by decide) (by decide)).2 ['a','b','c'] (by decide)⟩

/-- Claim C9: for every input text, every `chunk_size > 0` and every
`overlap` with `overlap < chunk_size`, every chunk returned by
`chunk_text` has length at most `chunk_size` (`chunk_size` is a hard
maximum on characters per chunk). -/
theorem chunk_text_length_le (t : List Char) (cs ov : Nat) (hov : ov < cs) :
    ∀ c ∈ chunk_text t cs ov, c.length ≤ cs :=
  chunkGo_len_le cs ov hov (splitParas t) [] [] (Nat.zero_le cs)
    (fun c hc => absurd hc (List.not_mem_nil c))

theorem chunk_text_length_le_witness :
    1 < 3 ∧ (['a','b','c'] : List Char).length ≤ 3 :=
  ⟨by decide,
   chunk_text_length_le ['a','b','c','d'] 3 1 (by decide) ['a','b','c'] (by decide)⟩

/-- Claim C10: for `overlap < chunk_size` the hard-split loop of
`chunk_text` makes progress — each iteration shortens the remaining
paragraph by exactly `chunk_size - overlap ≥ 1` characters — and
terminates: its result is already stable at fuel `temp.length` (the value
`hardSplit`, and hence `chunk_text`, uses), so adding any further fuel
changes nothing and the function returns a finite chunk list on every
input. -/
theorem hardSplit_terminates (cs ov : Nat) (hov : ov < cs) (temp : List Char) (fuel : Nat)
    (hf : temp.length ≤ fuel) :
    hardSplitF cs ov fuel temp = hardSplit cs ov temp ∧
    (cs < temp.length →
      (pyDropFrom ((cs : Int) - (ov : Int)) temp).length = temp.length - (cs - ov) ∧
      (pyDropFrom ((cs : Int) - (ov : Int)) temp).length < temp.length) := by
  constructor
  · exact hardSplitF_congr cs ov hov fuel temp.length temp hf le_rfl
  · intro hc
    rw [pyDropFrom_of_le cs ov (le_of_lt hov), List.length_drop]
    omega

theorem hardSplit_terminates_witness :
    1 < 3 ∧ hardSplitF 3 1 9 ['a','b','c','d','e','f','g'] =
      hardSplit 3 1 ['a','b','c','d','e','f','g'] :=
  ⟨by decide,
   (hardSplit_terminates 3 1 (by decide) ['a','b','c','d','e','f','g'] 9 (by decide)).1⟩

/-- Claim C6 (code bug): `chunk_text` performs no validation of its
parameters.  With `overlap = chunk_size` and a paragraph longer than
`chunk_size`, the slice start `chunk_size - overlap` is 0, the remaining
paragraph never shrinks, and the hard-split loop never reaches its exit:
after `fuel` iterations it has emitted `fuel` slices and the loop guard
still holds, for every `fuel` — the Python call loops forever instead of
failing with an `InvalidConfiguration` error. -/
theorem hardSplit_diverges_on_equal_overlap (cs : Nat) (temp : List Char)
    (h : cs < temp.length) (fuel : Nat) :
    (hardSplitF cs cs fuel temp).1.length = fuel ∧
    (hardSplitF cs cs fuel temp).2 = temp := by
  induction fuel with
  | zero => exact ⟨rfl, rfl⟩
  | succ fuel ih =>
    have hdrop : pyDropFrom ((cs : Int) - (cs : Int)) temp = temp := by
      unfold pyDropFrom
      rw [if_pos (by omega)]
      rw [show ((cs : Int) - (cs : Int)).toNat = 0 by omega, List.drop_zero]
    simp only [hardSplitF]
    rw [if_pos h, hdrop]
    exact ⟨by simp [ih.1], ih.2⟩

theorem hardSplit_diverges_on_equal_overlap_witness :
    5 < (['a','a','a','a','a','a'] : List Char).length ∧
    (hardSplitF 5 5 3 ['a','a','a','a','a','a']).1.length = 3 :=
  ⟨by decide,
   (hardSplit_diverges_on_equal_overlap 5 ['a','a','a','a','a','a'] (by decide) 3).1⟩

/-- Claim C3, counterexample: two stored chunks have identical embeddings,
hence equal similarity scores; the record with `timestamp` 100 was
inserted into the index before the record with `timestamp` 200, and
`retrieve` returns the older one first.  The claimed tie-break — more
recent `created_at` first — would require the hit with timestamp 200
first; no sorting or tie-breaking code exists in `retrieve`, and the
stored timestamps play no role in the order. -/
theorem retrieve_tie_break_counterexample :
    retrieve cfgOk storeC3 dbC3 ['q'] 5 inameEx =
      some [⟨1, 1, ['A'], ['n'], ['c'], ['f'], 100⟩,
            ⟨1, 2, ['B'], ['n'], ['c'], ['f'], 200⟩] ∧
    ¬ ((⟨1, 2, ['B'], ['n'], ['c'], ['f'], 200⟩ : Hit).score <
         (⟨1, 1, ['A'], ['n'], ['c'], ['f'], 100⟩ : Hit).score ∨
       ((⟨1, 1, ['A'], ['n'], ['c'], ['f'], 100⟩ : Hit).score =
          (⟨1, 2, ['B'], ['n'], ['c'], ['f'], 200⟩ : Hit).score ∧
        (⟨1, 2, ['B'], ['n'], ['c'], ['f'], 200⟩ : Hit).timestamp ≤
          (⟨1, 1, ['A'], ['n'], ['c'], ['f'], 100⟩ : Hit).timestamp)) := by
  decide

theorem retrieve_sorted_le_top_k_witness :
    retrieve cfgOk storeC3 dbC3 ['q'] 1 inameEx =
      some [⟨1, 1, ['A'], ['n'], ['c'], ['f'], 100⟩] ∧
    ([(⟨1, 1, ['A'], ['n'], ['c'], ['f'], 100⟩ : Hit)]).length ≤ 1 ∧
    List.Pairwise (fun a b => b.score ≤ a.score)
      [(⟨1, 1, ['A'], ['n'], ['c'], ['f'], 100⟩ : Hit)] :=
  ⟨by decide,
   retrieve_sorted_le_top_k cfgOk storeC3 dbC3 ['q'] 1 inameEx
     [⟨1, 1, ['A'], ['n'], ['c'], ['f'], 100⟩] (by decide)⟩

/-- Claim C4, counterexample: `textC4` chunks into exactly five chunks;
the embedding provider succeeds on four of them and fails on exactly one
("ef").  Because `index_document` embeds all chunks in one batched
`embed_texts` call, the single failure aborts the whole call (`none`, the
raised exception): nothing is stored, not the four healthy chunks, and no
`{chunks_attempted: 5, chunks_stored: 4}` summary exists. -/
theorem index_document_partial_failure_counterexample :
    chunk_text textC4 2 0 = [['a','b'],['c','d'],['e','f'],['g','h'],['i','j']] ∧
    providerC4 ['a','b'] = some [1] ∧ providerC4 ['c','d'] = some [1] ∧
    providerC4 ['e','f'] = none ∧ providerC4 ['g','h'] = some [1] ∧
    providerC4 ['i','j'] = some [1] ∧
    index_document cfgC4 (fun _ => 0) (fun _ => 0) inameEx ['c'] ['f'] ['n'] ['u']
      textC4 2 0 = none := by
  decide

theorem index_document_all_or_nothing_witness :
    (chunk_text textC4 2 0).isEmpty = false ∧
    embed_texts cfgC4 (chunk_text textC4 2 0) = none ∧
    index_document cfgC4 (fun _ => 0) (fun _ => 0) inameEx ['c'] ['f'] ['n'] ['u']
      textC4 2 0 = none :=
  ⟨by decide, by decide,
   (index_document_all_or_nothing cfgC4 (fun _ => 0) (fun _ => 0) inameEx ['c'] ['f']
      ['n'] ['u'] textC4 2 0 (by decide)).1 (by decide)⟩

/-- Claim C7, counterexample: after a successful `index_document` run the
stored records carry no `sequence_index` field at all — looking the key up
in the single stored record yields `none` (the code stores exactly the
keys `index_name`, `faiss_id`, `conv_id`, `file_record_id`, `filename`,
`chunk_text`, `user_id` and `timestamp`) — so the records do not carry
strictly increasing `sequence_index` values starting at 0. -/
theorem index_document_no_sequence_index :
    (index_document cfgOk (fun i => i + 7) (fun i => i) inameEx ['c'] ['f'] ['n'] ['u']
        ['a','b'] 10 0).map
      (fun r => r.1.map (fun m => m.lookup "sequence_index")) = some [none] := by
  decide

theorem index_document_order_no_seq_index_witness :
    (index_document cfgOk (fun i => i + 7) (fun i => i) inameEx ['c'] ['f'] ['n'] ['u']
        ['a','b','\n','\n','c','d'] 3 1 =
      some ([mkMeta inameEx ['c'] ['f'] ['n'] ['u'] ['a','b'] 7 0,
             mkMeta inameEx ['c'] ['f'] ['n'] ['u'] ['c','d'] 8 1],
            [(7, [1]), (8, [1])])) ∧
    ([mkMeta inameEx ['c'] ['f'] ['n'] ['u'] ['a','b'] 7 0,
      mkMeta inameEx ['c'] ['f'] ['n'] ['u'] ['c','d'] 8 1].map
        (fun m => m.lookup "chunk_text") =
      (chunk_text ['a','b','\n','\n','c','d'] 3 1).map (fun c => some (MVal.str c))) ∧
    ([mkMeta inameEx ['c'] ['f'] ['n'] ['u'] ['a','b'] 7 0,
      mkMeta inameEx ['c'] ['f'] ['n'] ['u'] ['c','d'] 8 1].map
        (fun m => m.lookup "sequence_index") =
      (chunk_text ['a','b','\n','\n','c','d'] 3 1).map (fun _ => (none : Option MVal))) :=
  ⟨by decide,
   index_document_order_no_seq_index cfgOk (fun i => i + 7) (fun i => i) inameEx ['c'] ['f']
     ['n'] ['u'] ['a','b','\n','\n','c','d'] 3 1
     [mkMeta inameEx ['c'] ['f'] ['n'] ['u'] ['a','b'] 7 0,
      mkMeta inameEx ['c'] ['f'] ['n'] ['u'] ['c','d'] 8 1]
     [(7, [1]), (8, [1])] (by decide)⟩

/-- Claim C8: when the query embedding succeeds, a search against a
collection tag whose index is nonexistent (no persisted index — the code
creates a fresh empty one) or empty returns the empty list — not an
error. -/
theorem retrieve_empty_index_returns_empty (cfg : EmbedCfg)
    (store : List Char → Option (List (Nat × List ℤ))) (db : List Meta)
    (query : List Char) (top_k : Nat) (indexName : List Char) (qvecs : List (List ℤ))
    (hq : embed_texts cfg [query] = some qvecs)
    (hstore : store indexName = none ∨ store indexName = some []) :
    retrieve cfg store db query top_k indexName = some [] := by
  unfold retrieve
  rw [hq]
  have hidx : load_index store indexName = [] := by
    unfold load_index
    rcases hstore with h | h <;> rw [h]
  simp [hidx]

theorem retrieve_empty_index_returns_empty_witness :
    embed_texts cfgOk [['q']] = some [[1]] ∧
    retrieve cfgOk (fun _ => none) [] ['q'] 5 ['z'] = some [] :=
  ⟨by decide,
   retrieve_empty_index_returns_empty cfgOk (fun _ => none) [] ['q'] 5 ['z'] [[1]]
     (by decide) (Or.inl rfl)⟩

theorem l2normSq_nonneg (v : List ℝ) : 0 ≤ l2normSq v := by
  unfold l2normSq
  induction v with
  | nil => simp
  | cons a l ih =>
    simp only [List.map_cons, List.sum_cons]
    exact add_nonneg (mul_self_nonneg a) ih

theorem l2normSq_map_div (v : List ℝ) (d : ℝ) :
    l2normSq (v.map (fun x => x / d)) = l2normSq v / (d * d) := by
  unfold l2normSq
  induction v with
  | nil => simp
  | cons a l ih =>
    simp only [List.map_cons, List.sum_cons]
    rw [ih, div_mul_div_comm, add_div]

/-- Claim C5: the Groq-path normalization step never divides by a zero
norm — the per-row divisor (the row norm, with zero norms replaced by 1)
is nonzero for every input vector; every vector of nonzero norm is scaled
to unit L2 length (squared norm exactly 1 over the idealized reals); an
all-zero vector is left unchanged (divided by 1), handled rather than
divided by zero. -/
theorem groqNormalizeRow_unit_or_zero (v : List ℝ) :
    groqRowDivisor v ≠ 0 ∧
    (l2norm v ≠ 0 → l2normSq (groqNormalizeRow v) = 1) ∧
    (l2norm v = 0 → groqNormalizeRow v = v) := by
  refine ⟨?_, ?_, ?_⟩
  · unfold groqRowDivisor
    by_cases h : l2norm v = 0
    · rw [if_pos h]; exact one_ne_zero
    · rw [if_neg h]; exact h
  · intro h
    unfold groqNormalizeRow
    rw [l2normSq_map_div]
    unfold groqRowDivisor
    rw [if_neg h]
    unfold l2norm
    rw [Real.mul_self_sqrt (l2normSq_nonneg v)]
    have hsq : l2normSq v ≠ 0 := by
      intro h0
      apply h
      unfold l2norm
      rw [h0, Real.sqrt_zero]
    exact div_self hsq
  · intro h
    unfold groqNormalizeRow groqRowDivisor
    rw [if_pos h]
    simp

theorem groqNormalizeRow_unit_or_zero_witness :
    l2norm [(3 : ℝ), 4] ≠ 0 ∧ l2normSq (groqNormalizeRow [(3 : ℝ), 4]) = 1 := by
  have h25 : l2normSq [(3 : ℝ), 4] = 25 := by
    unfold l2normSq
    norm_num
  have hne : l2norm [(3 : ℝ), 4] ≠ 0 := by
    unfold l2norm
    rw [h25]
    exact ne_of_gt (Real.sqrt_pos.mpr (by norm_num))
  exact ⟨hne, (groqNormalizeRow_unit_or_zero [(3 : ℝ), 4]).2.1 hne⟩
